import Mathlib

/-!
Shallow embedding of the Wikipedia revision batch downloader
(src/get_revision_history.py and src/get_latest_revision_text.py).

Python strings are modelled as List Char.  Modelling conventions, noted
again at the relevant definitions:
* nltk's WhitespaceTokenizer splits on runs of regex whitespace; the model
  covers the ASCII whitespace class (non-ASCII Unicode whitespace is outside
  the model, the markers and claims only exercise ASCII).
* Python str.isnumeric is modelled on ASCII decimal digits.
* datetime.strptime(ts, "%Y-%m-%dT%H:%M:%SZ") followed by
  int(dt.timestamp()) is modelled as UTC epoch-second conversion (the
  script's naive datetime is interpreted in the local timezone; spec
  section 4.6 fixes the UTC reading, which a UTC environment realises).
* The on-disk JSON collection file is modelled as the stream of writes the
  script performs: the array-start marker, record values, the ",\n"
  separators (written both between records of one page and between pages:
  byte-wise they are the same string), and the array-end marker.
* Process pools: list(executor.map(f, xs)) is modelled by an arbitrary
  completion order of index-tagged results gathered back in input order,
  which is the documented behaviour of ProcessPoolExecutor.map.
-/

/-- Whitespace characters of the ASCII regex whitespace class, the class
nltk's WhitespaceTokenizer splits on. -/
def isWsChar (c : Char) : Bool :=
  c = ' ' || c = '\t' || c = '\n' || c = '\r' || c = '\x0b' || c = '\x0c'

/-- One foldr step of whitespace splitting: a whitespace character opens a
new (so far empty) run, any other character is prepended to the current
run. -/
def runStep (c : Char) (acc : List (List Char)) : List (List Char) :=
  if isWsChar c then [] :: acc
  else
    match acc with
    | [] => [[c]]
    | t :: ts => (c :: t) :: ts

/-- Splits a character list at whitespace characters (empty runs arise
between adjacent whitespace characters and at the ends). -/
def splitRuns (l : List Char) : List (List Char) := l.foldr runStep []

/-- WhitespaceTokenizer().tokenize(doc): the maximal nonempty runs of
non-whitespace characters, in order. -/
def tokenize (l : List Char) : List (List Char) :=
  (splitRuns l).filter (fun t => !t.isEmpty)

/-- The join performed by " ".join(tokens). -/
def joinTokens : List (List Char) → List Char
  | [] => []
  | [t] => t
  | t :: ts => t ++ ' ' :: joinTokens ts

/-- Python str.isnumeric on the pipeline's tokens: nonempty and all decimal
digits (non-ASCII Unicode numerics are outside the model). -/
def isNumericTok (t : List Char) : Bool := !t.isEmpty && t.all Char.isDigit

/-- Step 3 of clean_doc: tokenize on whitespace, drop the purely numeric
tokens, rejoin with single spaces. -/
def rejoinNonNumeric (l : List Char) : List Char :=
  joinTokens ((tokenize l).filter (fun t => !isNumericTok t))

/-- Left-to-right scan implementing re.sub(citation_regex, two-single-quote
empty string, doc) for the pattern of an opening bracket, one or more
digits, and a closing bracket.  The state some ds records that an opening
bracket followed by exactly the digits ds has been consumed; a closing
bracket then completes a leftmost match, which is deleted.  On any other
character the consumed characters are emitted verbatim (no match can start
inside them except at a later opening bracket, which the scan handles). -/
def rcAux : Option (List Char) → List Char → List Char
  | none, [] => []
  | some ds, [] => '[' :: ds
  | none, c :: cs => if c = '[' then rcAux (some []) cs else c :: rcAux none cs
  | some ds, c :: cs =>
    if c.isDigit then rcAux (some (ds ++ [c])) cs
    else if c = ']' && !ds.isEmpty then rcAux none cs
    else if c = '[' then ('[' :: ds) ++ rcAux (some []) cs
    else ('[' :: ds) ++ c :: rcAux none cs

/-- Step 4 of clean_doc: remove every bracketed-digits citation substring. -/
def removeCitations (l : List Char) : List Char := rcAux none l

/-- doc.find(substr): index of the first occurrence, none when absent
(the source's -1). -/
def findSubstr : List Char → List Char → Option Nat
  | [], pat => if pat.isEmpty then some 0 else none
  | c :: cs, pat =>
    if pat.isPrefixOf (c :: cs) then some 0 else (findSubstr cs pat).map (· + 1)

/-- remove_everything_after(doc, substr): truncate at the first occurrence
of substr (the found/not-found flag the source also returns is unused by
its caller and omitted here). -/
def removeEverythingAfter (doc substr : List Char) : List Char :=
  match findSubstr doc substr with
  | some i => doc.take i
  | none => doc

/-- The three sequential truncations of clean_doc, in source order:
"Notes", then "External links", then "References", each in the
newline-terminated header form. -/
def truncateMarkers (doc : List Char) : List Char :=
  removeEverythingAfter
    (removeEverythingAfter
      (removeEverythingAfter doc ("Notes\n".data))
      ("External links\n".data))
    ("References\n".data)

/-- clean_doc: marker truncations, then numeric-token removal with
single-space rejoin, then citation removal. -/
def clean_doc (doc : List Char) : List Char :=
  removeCitations (rejoinNonNumeric (truncateMarkers doc))

/-- A parsed fixed-format API timestamp. -/
structure Dt where
  year : Int
  month : Int
  day : Int
  hour : Int
  minute : Int
  second : Int
deriving DecidableEq

/-- Gregorian leap-year test, as datetime uses. -/
def isLeap (y : Int) : Bool :=
  (y.emod 4 == 0 && y.emod 100 != 0) || y.emod 400 == 0

/-- Day count of a month, for the range validation datetime performs. -/
def daysInMonth (y m : Int) : Int :=
  if m == 2 then (if isLeap y then 29 else 28)
  else if m == 4 || m == 6 || m == 9 || m == 11 then 30
  else 31

/-- Numeric value of a decimal digit character. -/
def digitVal (c : Char) : Int := Int.ofNat (c.toNat - '0'.toNat)

/-- datetime.strptime(timestamp, "%Y-%m-%dT%H:%M:%SZ") on the API's
fixed-width timestamps: the exact 20-character form with the field ranges
datetime validates; none models the ValueError raised otherwise. -/
def parseTimestamp : List Char → Option Dt
  | [y1, y2, y3, y4, '-', m1, m2, '-', d1, d2, 'T',
     h1, h2, ':', n1, n2, ':', s1, s2, 'Z'] =>
    if ([y1, y2, y3, y4, m1, m2, d1, d2, h1, h2, n1, n2, s1, s2].all
        Char.isDigit) then
      let y := 1000 * digitVal y1 + 100 * digitVal y2 + 10 * digitVal y3 +
        digitVal y4
      let mo := 10 * digitVal m1 + digitVal m2
      let d := 10 * digitVal d1 + digitVal d2
      let h := 10 * digitVal h1 + digitVal h2
      let mi := 10 * digitVal n1 + digitVal n2
      let s := 10 * digitVal s1 + digitVal s2
      if 1 ≤ y ∧ 1 ≤ mo ∧ mo ≤ 12 ∧ 1 ≤ d ∧ d ≤ daysInMonth y mo ∧
          h ≤ 23 ∧ mi ≤ 59 ∧ s ≤ 59 then
        some ⟨y, mo, d, h, mi, s⟩
      else none
    else none
  | _ => none

/-- Days since 1970-01-01 of a Gregorian civil date (the standard
days-from-civil computation; every division below acts on nonnegative
operands for the dates the API produces, so truncated division agrees with
the intended floor). -/
def daysFromCivil (y m d : Int) : Int :=
  let yy := if m ≤ 2 then y - 1 else y
  let era := Int.tdiv (if 0 ≤ yy then yy else yy - 399) 400
  let yoe := yy - era * 400
  let mp := Int.emod (m + 9) 12
  let doy := Int.tdiv (153 * mp + 2) 5 + d - 1
  let doe := yoe * 365 + Int.tdiv yoe 4 - Int.tdiv yoe 100 + doy
  era * 146097 + doe - 719468

/-- int(dt.timestamp()) for the parsed timestamp, read as UTC (see the
module comment). -/
def timestampToUnix (t : Dt) : Int :=
  daysFromCivil t.year t.month t.day * 86400 + t.hour * 3600 +
    t.minute * 60 + t.second

/-- One element of the persisted JSON collection:
a timestamp (epoch seconds) and content pair. -/
structure RevRecord where
  timestamp : Int
  content : List Char
deriving DecidableEq

/-- One revision object of an API response page, keeping the two keys the
script reads; none models an absent key (the star field is the content
key named with an asterisk in the API response). -/
structure ApiRevision where
  timestamp : Option (List Char)
  star : Option (List Char)
deriving DecidableEq

/-- One page of the paginated revision API response. -/
structure ApiPage where
  revisions : List ApiRevision
  rvcontinue : Option (List Char)
deriving DecidableEq

/-- The revisions of a page that carry both required keys, in page order:
the body of the loop that silently drops incomplete revisions. -/
def pageValid (p : ApiPage) : List (List Char × List Char) :=
  p.revisions.filterMap fun r =>
    match r.timestamp, r.star with
    | some ts, some c => some (ts, c)
    | _, _ => none

/-- The conversion write_revisions performs on one revision: parse the
API timestamp and build the persisted record; none when strptime would
raise. -/
def persistRevision (ts content : List Char) : Option RevRecord :=
  (parseTimestamp ts).map fun t => ⟨timestampToUnix t, content⟩

/-- One token of the write stream forming the persisted collection file:
the array-start marker, a ",\n" separator, a dumped record, or the
array-end marker. -/
inductive WTok where
  | arrStart : WTok
  | sep : WTok
  | record : RevRecord → WTok
  | arrEnd : WTok
deriving DecidableEq

/-- All-or-nothing elementwise evaluation (the loop bodies below stop at
the first failing element, as the raised Python exception does). -/
def optionMapAll (g : α → Option β) : List α → Option (List β)
  | [] => some []
  | x :: xs =>
    match g x, optionMapAll g xs with
    | some y, some ys => some (y :: ys)
    | _, _ => none

/-- The records write_revisions would persist for one page. -/
def pageRecords (p : ApiPage) : Option (List RevRecord) :=
  optionMapAll (fun tc => persistRevision tc.1 tc.2) (pageValid p)

/-- write_revisions(f, revisions_data): dumps each record and writes a
separator between consecutive records of the page (not after the last). -/
def write_revisions (rs : List RevRecord) : List WTok :=
  List.intersperse WTok.sep (rs.map WTok.record)

/-- The request loop of get_all_revision_ids, one iteration per API page:
write the page's valid records; if the response carries a continuation
token write a separator and continue, otherwise write the array-end marker
and stop.  none models the run aborting with an exception. -/
def harvestAux : List ApiPage → Option (List WTok)
  | [] => some []
  | p :: rest =>
    match pageRecords p with
    | none => none
    | some rs =>
      match p.rvcontinue with
      | some _ =>
        match harvestAux rest with
        | none => none
        | some t => some (write_revisions rs ++ WTok.sep :: t)
      | none => some (write_revisions rs ++ [WTok.arrEnd])

/-- get_all_revision_ids: the array-start marker followed by the loop's
writes. -/
def get_all_revision_ids (pages : List ApiPage) : Option (List WTok) :=
  (harvestAux pages).map (fun t => WTok.arrStart :: t)

/-- A harvest that terminates normally: at least one page, every page
before the last carries a continuation token, and the last does not. -/
def termNorm : List ApiPage → Bool
  | [] => false
  | [p] => p.rvcontinue.isNone
  | p :: rest => p.rvcontinue.isSome && termNorm rest

/-- Every valid revision's timestamp parses (the API's fixed format
guarantees this; spec section 4.6). -/
abbrev AllParse (pages : List ApiPage) : Prop :=
  ∀ p ∈ pages, ∀ tc ∈ pageValid p, (persistRevision tc.1 tc.2).isSome

/-- The record values appearing in a write stream, in order. -/
def recordsOfToks (toks : List WTok) : List RevRecord :=
  toks.filterMap fun t =>
    match t with
    | WTok.record r => some r
    | _ => none

/-- The persisted records a harvest should contain: each page's valid
revisions converted, concatenated in API page order. -/
def harvestRecords : List ApiPage → List RevRecord
  | [] => []
  | p :: ps =>
    (pageValid p).filterMap (fun tc => persistRevision tc.1 tc.2) ++
      harvestRecords ps

/-- Total number of valid revisions over all pages. -/
def totalValid : List ApiPage → Nat
  | [] => 0
  | p :: ps => (pageValid p).length + totalValid ps

/-- Grammar state after a record value: a separator must be followed by a
record, and the stream must close with exactly the array-end marker. -/
def wfItems : List WTok → Bool
  | [WTok.arrEnd] => true
  | WTok.sep :: WTok.record _ :: rest => wfItems rest
  | _ => false

/-- Grammar state just after the array-start marker: an empty array or a
record followed by separator-record pairs, closed by the end marker. -/
def wfAfterStart : List WTok → Bool
  | [WTok.arrEnd] => true
  | WTok.record _ :: rest => wfItems rest
  | _ => false

/-- The write stream forms a single well-formed top-level JSON array:
one start marker, records separated by single separators, one end
marker. -/
def wellFormedArr : List WTok → Bool
  | WTok.arrStart :: rest => wfAfterStart rest
  | _ => false

/-- Parser state of the streaming JSON array reader. -/
inductive PSt where
  | item0 : PSt
  | afterItem : PSt
  | item1 : PSt
deriving DecidableEq

/-- ijson.items(file, 'item') over the token stream: the pair of the
records yielded before the stream ends and whether the array was properly
closed; a false flag models the IncompleteJSONError the parser raises when
end-of-input or an unexpected token arrives before the closing bracket.
State item0 expects an item or the end marker (just after the start
marker), afterItem expects a separator or the end marker, item1 expects an
item (just after a separator). -/
def ijsonAux : PSt → List WTok → List RevRecord × Bool
  | _, [] => ([], false)
  | PSt.item0, WTok.arrEnd :: _ => ([], true)
  | PSt.item0, WTok.record r :: rest =>
    ((r :: (ijsonAux PSt.afterItem rest).1), (ijsonAux PSt.afterItem rest).2)
  | PSt.item0, _ => ([], false)
  | PSt.afterItem, WTok.arrEnd :: _ => ([], true)
  | PSt.afterItem, WTok.sep :: rest => ijsonAux PSt.item1 rest
  | PSt.afterItem, _ => ([], false)
  | PSt.item1, WTok.record r :: rest =>
    ((r :: (ijsonAux PSt.afterItem rest).1), (ijsonAux PSt.afterItem rest).2)
  | PSt.item1, _ => ([], false)

/-- The item stream of the persisted collection file. -/
def ijsonItems : List WTok → List RevRecord × Bool
  | WTok.arrStart :: rest => ijsonAux PSt.item0 rest
  | _ => ([], false)

/-- Partition into chunks: the accumulator holds the current chunk
reversed, the counter its remaining capacity. -/
def chunksAux (n : Nat) : List α → List α → Nat → List (List α)
  | [], acc, _ => if acc.isEmpty then [] else [acc.reverse]
  | x :: xs, acc, 0 => acc.reverse :: chunksAux n xs [x] (n - 1)
  | x :: xs, acc, k + 1 => chunksAux n xs (x :: acc) k

/-- Consecutive chunks of size n (the last possibly shorter), as the
islice loop produces them. -/
def chunked (n : Nat) (l : List α) : List (List α) := chunksAux n l [] n

/-- sorted(chunk, key=lambda x: x["timestamp"]): Python's sort is stable;
it is modelled by insertion sort on the non-strict timestamp order, the
canonical stable sort, which any stable sort agrees with. -/
def sortByTimestamp (chunk : List RevRecord) : List RevRecord :=
  List.insertionSort (fun a b => a.timestamp ≤ b.timestamp) chunk

/-- The pair a persisted record contributes to process_chunk's output. -/
def recToPair (r : RevRecord) : Int × List Char := (r.timestamp, r.content)

/-- process_chunk: the chunk's entries as (timestamp, content) pairs in
timestamp-sorted order. -/
def process_chunk (chunk : List RevRecord) : List (Int × List Char) :=
  (sortByTimestamp chunk).map recToPair

/-- clean_revision: keep the timestamp, strip the wikitext markup and
clean the document.  mwparserfromhell's strip_code is an external
collaborator (spec section 6) and is passed as a function parameter. -/
def clean_revision (strip_code : List Char → List Char)
    (tc : Int × List Char) : Int × List Char :=
  (tc.1, clean_doc (strip_code tc.2))

/-- The per-chunk loop body of clean_revisions_in_batches applied to a
list of chunks: each chunk is sorted by process_chunk and cleaned by cl
(which models list(executor.map(clean_revision, revisions)); none models a
normalization failure raised inside the pool).  On a failure the results
accumulated from earlier chunks are abandoned with the error, as the
raised exception abandons clean_revisions. -/
def runChunks (cl : Int × List Char → Option (Int × List Char)) :
    List (List RevRecord) → List (Int × List Char) →
    Except (List (Int × List Char)) (List (Int × List Char))
  | [], acc => Except.ok acc
  | c :: cs, acc =>
    match optionMapAll cl (process_chunk c) with
    | none => Except.error acc
    | some lc => runChunks cl cs (acc ++ lc)

/-- clean_revisions_in_batches: stream the items of the persisted file and
process them in chunks of 100.  When the parser reports the array properly
closed, every chunk (the last possibly short) is processed.  When it does
not (truncated or corrupt input), the items before the truncation point
are still yielded lazily: every complete chunk of 100 among them is
processed before the parse error propagates out of the islice call, and
the leftover items are abandoned; the run then ends in the error.  The
error payload records the revisions cleaned before the failure surfaced. -/
def clean_revisions_in_batches
    (cl : Int × List Char → Option (Int × List Char)) (toks : List WTok) :
    Except (List (Int × List Char)) (List (Int × List Char)) :=
  if (ijsonItems toks).2 then
    runChunks cl (chunked 100 (ijsonItems toks).1) []
  else
    match runChunks cl
        (chunked 100 ((ijsonItems toks).1.take
          (100 * ((ijsonItems toks).1.length / 100)))) [] with
    | Except.ok acc => Except.error acc
    | Except.error acc => Except.error acc

/-- The driver's pass 2: the final corpus file
(article_lang_clean.json) is opened and written only after
clean_revisions_in_batches has returned; an exception propagating out of
it terminates the script first, so none models the file never being
created. -/
def pass2Output (cl : Int × List Char → Option (Int × List Char))
    (toks : List WTok) : Option (List (Int × List Char)) :=
  match clean_revisions_in_batches cl toks with
  | Except.error _ => none
  | Except.ok l => some l

/-- The complete cleaned corpus of an item list: every chunk sorted and
cleaned, concatenated in order; none when any revision fails to clean. -/
def fullCorpus (cl : Int × List Char → Option (Int × List Char))
    (items : List RevRecord) : Option (List (Int × List Char)) :=
  (optionMapAll (fun c => optionMapAll cl (process_chunk c))
    (chunked 100 items)).map List.flatten

/-- Completion trace of the worker pool: the workers finish the jobs whose
input indices are listed in order; each completed job is tagged with its
input index and result, as the future objects of executor.map are. -/
def poolTrace (f : α → β) (inputs : List α) (order : List Nat) :
    List (Nat × β) :=
  order.filterMap fun i => (inputs[i]?).map fun a => (i, f a)

/-- Gathering of executor.map: results are read back in input-index order,
regardless of completion order. -/
def poolCollect (n : Nat) (trace : List (Nat × β)) : List β :=
  (List.range n).filterMap fun i => trace.lookup i

/-- Model of list(executor.map(f, inputs)) under an arbitrary completion
order of the pool's workers. -/
def executorMap (f : α → β) (inputs : List α) (order : List Nat) : List β :=
  poolCollect inputs.length (poolTrace f inputs order)

/-- One page object of the extracts API response. -/
structure QPage where
  title : List Char
  extract : Option (List Char)
deriving DecidableEq

/-- One entry of the response's normalized title mapping. -/
structure NormEntry where
  fromTitle : List Char
  toTitle : List Char
deriving DecidableEq

/-- The parts of the extracts API response get_latest_revisions reads. -/
structure QueryResult where
  pages : List QPage
  normalized : Option (List NormEntry)
deriving DecidableEq

/-- Python substring containment (the in operator on str). -/
def substrOf (needle hay : List Char) : Bool := (findSubstr hay needle).isSome

/-- The inner loop of get_latest_revisions over the normalized mapping:
the first entry whose target contains the page's title as a substring
decides the original title, and the page contributes its extract under
that title (nothing when the page has no extract); the loop breaks at that
first entry either way.  A page matching no entry contributes nothing. -/
def normLookup (p : QPage) : List NormEntry → Option (List Char × List Char)
  | [] => none
  | e :: rest =>
    if substrOf p.title e.toTitle then p.extract.map fun x => (e.fromTitle, x)
    else normLookup p rest

/-- get_latest_revisions: the title-to-text assignments performed, in page
order; when the response carries no normalized mapping nothing is
assigned (the source only prints a failure message). -/
def get_latest_revisions (resp : QueryResult) : List (List Char × List Char) :=
  match resp.normalized with
  | none => []
  | some ns => resp.pages.filterMap fun p => normLookup p ns

/-- A persisted collection file truncated before its terminal marker,
holding 101 complete records: the start marker and 101 records separated
by separators, with no end marker (the shape an interrupted pass 1 leaves
behind). -/
def truncatedToks : List WTok :=
  WTok.arrStart :: WTok.record ⟨0, []⟩ ::
    (List.replicate 100 [WTok.sep, WTok.record ⟨0, []⟩]).flatten

/-! Theorems.  First the text layer: whitespace splitting and its
interaction with the single-space rejoin. -/

theorem foldr_runStep_cons (t : List Char) (ht : ∀ c ∈ t, isWsChar c = false)
    (a : List Char) (as : List (List Char)) :
    t.foldr runStep (a :: as) = (t ++ a) :: as := by
  induction t with
  | nil => rfl
  | cons c t ih =>
    have hc : isWsChar c = false := ht c (List.mem_cons_self _ _)
    have h2 := ih (fun d hd => ht d (List.mem_cons_of_mem _ hd))
    simp only [List.foldr_cons, h2, runStep, hc, Bool.false_eq_true,
      if_false, List.cons_append]

theorem foldr_runStep_nil (t : List Char) (ht : ∀ c ∈ t, isWsChar c = false)
    (hne : t ≠ []) : t.foldr runStep [] = [t] := by
  induction t with
  | nil => cases hne rfl
  | cons c t ih =>
    have hc : isWsChar c = false := ht c (List.mem_cons_self _ _)
    cases t with
    | nil => simp [runStep, hc]
    | cons d t' =>
      have h2 := ih (fun e he => ht e (List.mem_cons_of_mem _ he))
        (by simp)
      simp only [List.foldr_cons] at h2 ⊢
      rw [h2]
      simp [runStep, hc]

theorem splitRuns_nonws (l : List Char) :
    ∀ t ∈ splitRuns l, ∀ c ∈ t, isWsChar c = false := by
  induction l with
  | nil => simp [splitRuns]
  | cons c l ih =>
    intro t ht d hd
    by_cases hc : isWsChar c
    · rw [show splitRuns (c :: l) = [] :: splitRuns l by
        simp [splitRuns, runStep, hc]] at ht
      rcases List.mem_cons.mp ht with h | h
      · subst h; cases hd
      · exact ih t h d hd
    · have hrepr : splitRuns (c :: l) = runStep c (splitRuns l) := rfl
      rw [hrepr] at ht
      cases hsp : splitRuns l with
      | nil =>
        rw [hsp] at ht
        simp only [runStep, hc, Bool.false_eq_true, if_false] at ht
        rcases List.mem_cons.mp ht with h | h
        · subst h
          rcases List.mem_cons.mp hd with h2 | h2
          · subst h2; simpa using hc
          · cases h2
        · cases h
      | cons t0 ts =>
        rw [hsp] at ht
        simp only [runStep, hc, Bool.false_eq_true, if_false] at ht
        rcases List.mem_cons.mp ht with h | h
        · subst h
          rcases List.mem_cons.mp hd with h2 | h2
          · subst h2; simpa using hc
          · exact ih t0 (hsp ▸ List.mem_cons_self _ _) d h2
        · exact ih t (hsp ▸ List.mem_cons_of_mem _ h) d hd

theorem tokenize_spec (l : List Char) :
    ∀ t ∈ tokenize l, t ≠ [] ∧ ∀ c ∈ t, isWsChar c = false := by
  intro t ht
  have h1 := List.mem_filter.mp ht
  refine ⟨by simpa using h1.2, splitRuns_nonws l t h1.1⟩

theorem tokenize_joinTokens (ts : List (List Char))
    (h : ∀ t ∈ ts, t ≠ [] ∧ ∀ c ∈ t, isWsChar c = false) :
    tokenize (joinTokens ts) = ts := by
  induction ts with
  | nil => rfl
  | cons t ts ih =>
    obtain ⟨hne, hnw⟩ := h t (List.mem_cons_self _ _)
    cases ts with
    | nil =>
      show tokenize t = [t]
      unfold tokenize splitRuns
      rw [foldr_runStep_nil t hnw hne]
      simp [hne]
    | cons t' ts' =>
      have hJ : joinTokens (t :: t' :: ts') = t ++ ' ' :: joinTokens (t' :: ts') :=
        rfl
      have hrest := ih (fun u hu => h u (List.mem_cons_of_mem _ hu))
      unfold tokenize splitRuns at hrest ⊢
      rw [hJ, List.foldr_append]
      have hws : (' ' :: joinTokens (t' :: ts')).foldr runStep [] =
          [] :: (joinTokens (t' :: ts')).foldr runStep [] := by
        simp [runStep, isWsChar]
      rw [hws, foldr_runStep_cons t hnw, List.append_nil]
      simp only [List.filter_cons, hne, List.isEmpty_iff, Bool.not_eq_true',
        Bool.not_true]
      rw [if_pos (by simpa using hne)] at *
      exact congrArg _ hrest

theorem rejoinNonNumeric_idem (l : List Char) :
    rejoinNonNumeric (rejoinNonNumeric l) = rejoinNonNumeric l := by
  unfold rejoinNonNumeric
  rw [tokenize_joinTokens _ (fun t ht => tokenize_spec l t (List.mem_filter.mp ht).1)]
  rw [List.filter_eq_self.mpr (fun t ht => (List.mem_filter.mp ht).2)]

/-- C5 counterexample: on the document "a [1] b" the composition of steps
3 and 4 yields "a  b" (double space); applying steps 3 and 4 to that
output collapses the double space to "a b", so the composition is not
idempotent. -/
theorem c5_steps34_not_idempotent :
    removeCitations (rejoinNonNumeric
        (removeCitations (rejoinNonNumeric ("a [1] b".data)))) ≠
      removeCitations (rejoinNonNumeric ("a [1] b".data)) := by decide

/-- C5 (amended): the composition of cleaning steps 3 and 4 is idempotent
on every input on which step 4 removes nothing (no bracketed-digits
citation survives step 3); in general it is not idempotent, because a
deleted citation leaves adjacent spaces (or a newly purely-numeric token)
that a second application collapses or removes. -/
theorem c5_steps34_idempotent_when_no_citation (l : List Char)
    (h : removeCitations (rejoinNonNumeric l) = rejoinNonNumeric l) :
    removeCitations (rejoinNonNumeric (removeCitations (rejoinNonNumeric l))) =
      removeCitations (rejoinNonNumeric l) := by
  rw [h, rejoinNonNumeric_idem, h]

theorem c5_steps34_idempotent_when_no_citation_witness :
    removeCitations (rejoinNonNumeric ("hello 42 world.".data)) =
        rejoinNonNumeric ("hello 42 world.".data) ∧
      removeCitations (rejoinNonNumeric
          (removeCitations (rejoinNonNumeric ("hello 42 world.".data)))) =
        removeCitations (rejoinNonNumeric ("hello 42 world.".data)) :=
  ⟨by decide, c5_steps34_idempotent_when_no_citation _ (by decide)⟩

/-- C6: the end-to-end scenario of one revision with timestamp
2020-01-01T00:00:00Z and content "Hello [1] 2020 world": the persisted
record carries epoch second 1577836800 with the content unchanged, and
cleaning yields "Hello  world" with exactly two spaces (the numeric token
and the citation removed, the double space not collapsed). -/
theorem c6_end_to_end_single_revision :
    persistRevision ("2020-01-01T00:00:00Z".data) ("Hello [1] 2020 world".data) =
        some ⟨1577836800, "Hello [1] 2020 world".data⟩ ∧
      clean_doc ("Hello [1] 2020 world".data) =
        "Hello".data ++ [' ', ' '] ++ "world".data := by decide

/-! Substring search: soundness, minimality, completeness of findSubstr. -/

theorem findSubstr_prefix {l pat : List Char} {q : Nat}
    (h : findSubstr l pat = some q) : pat <+: l.drop q := by
  induction l generalizing q with
  | nil =>
    unfold findSubstr at h
    by_cases hp : pat.isEmpty
    · simp only [hp, if_true, Option.some.injEq] at h
      subst h
      simp [List.isEmpty_iff.mp hp]
    · simp [hp] at h
  | cons c cs ih =>
    unfold findSubstr at h
    by_cases hp : pat.isPrefixOf (c :: cs)
    · simp only [hp, if_true, Option.some.injEq] at h
      subst h
      simpa using List.isPrefixOf_iff_prefix.mp hp
    · simp only [hp, Bool.false_eq_true, if_false] at h
      obtain ⟨q', hq', heq⟩ := Option.map_eq_some'.mp h
      subst heq
      simpa using ih hq'

theorem findSubstr_min {l pat : List Char} {q : Nat}
    (h : findSubstr l pat = some q) : ∀ j < q, ¬ pat <+: l.drop j := by
  induction l generalizing q with
  | nil =>
    unfold findSubstr at h
    by_cases hp : pat.isEmpty
    · simp only [hp, if_true, Option.some.injEq] at h
      subst h
      omega
    · simp [hp] at h
  | cons c cs ih =>
    unfold findSubstr at h
    by_cases hp : pat.isPrefixOf (c :: cs)
    · simp only [hp, if_true, Option.some.injEq] at h
      subst h
      omega
    · simp only [hp, Bool.false_eq_true, if_false] at h
      obtain ⟨q', hq', heq⟩ := Option.map_eq_some'.mp h
      subst heq
      intro j hj
      cases j with
      | zero =>
        intro hpre
        exact hp (List.isPrefixOf_iff_prefix.mpr (by simpa using hpre))
      | succ j' =>
        have := ih hq' j' (by omega)
        simpa using this

theorem findSubstr_complete {l pat : List Char} {q : Nat}
    (h : pat <+: l.drop q) : ∃ m, m ≤ q ∧ findSubstr l pat = some m := by
  induction l generalizing q with
  | nil =>
    have hq : pat = [] := List.prefix_nil.mp (by simpa using h)
    subst hq
    exact ⟨0, Nat.zero_le _, rfl⟩
  | cons c cs ih =>
    by_cases hp : pat.isPrefixOf (c :: cs)
    · exact ⟨0, Nat.zero_le _, by unfold findSubstr; simp [hp]⟩
    · cases q with
      | zero =>
        exact absurd (List.isPrefixOf_iff_prefix.mpr (by simpa using h)) hp
      | succ q' =>
        obtain ⟨m, hm, hfind⟩ := ih (by simpa using h)
        refine ⟨m + 1, by omega, ?_⟩
        unfold findSubstr
        simp [hp, hfind]

theorem removeEverythingAfter_eq_take (doc pat : List Char) :
    ∃ k, removeEverythingAfter doc pat = doc.take k := by
  unfold removeEverythingAfter
  cases h : findSubstr doc pat with
  | some i => exact ⟨i, rfl⟩
  | none => exact ⟨doc.length, (List.take_length _).symm⟩

theorem prefix_drop_getElem {l pat : List Char} {q j : Nat}
    (h : pat <+: l.drop q) (hj : j < pat.length) : l[q + j]? = pat[j]? := by
  obtain ⟨t, ht⟩ := h
  rw [← List.getElem?_drop, ← ht, List.getElem?_append, if_pos hj]

theorem prefix_take_of_le {R s : List Char} {k : Nat} (h : R <+: s)
    (hk : R.length ≤ k) : R <+: s.take k := by
  rw [List.prefix_iff_eq_take] at h ⊢
  rw [List.take_take, Nat.min_eq_left hk] at *
  exact h

/-- Character-clash bound: an occurrence of a marker whose first character
does not appear in "References" followed by a newline cannot begin inside
an occurrence of that string, so it begins strictly before it or at least
its length later. -/
theorem marker_occurrence_avoids_refs {l pat : List Char} {p q : Nat} {c : Char}
    (hR : ("References\n".data) <+: l.drop p)
    (hpat : pat <+: l.drop q) (hhead : pat[0]? = some c)
    (hc : c ∉ ("References\n".data)) :
    q < p ∨ p + 11 ≤ q := by
  by_contra hcon
  push_neg at hcon
  obtain ⟨h1, h2⟩ := hcon
  have hplen : 0 < pat.length := by
    rcases List.getElem?_eq_some.mp hhead with ⟨hlt, _⟩
    exact hlt
  have hq : q = p + (q - p) := by omega
  have hjlt : q - p < ("References\n".data).length := by
    have : ("References\n".data).length = 11 := rfl
    omega
  have e1 : l[q + 0]? = pat[0]? := prefix_drop_getElem hpat hplen
  have e2 : l[p + (q - p)]? = ("References\n".data)[q - p]? :=
    prefix_drop_getElem hR hjlt
  rw [Nat.add_zero, hhead] at e1
  rw [← hq, e1] at e2
  rcases List.getElem?_eq_some.mp e2.symm with ⟨hlt2, hval⟩
  exact hc (hval ▸ List.getElem_mem hlt2)

/-- One truncation step in the presence of a later References marker:
either the cut lands at or before the marker position, or the truncated
document is a take that still contains the marker occurrence at p. -/
theorem truncation_step_keeps_refs (pat : List Char) {doc : List Char}
    {p : Nat} {c : Char}
    (hR : ("References\n".data) <+: doc.drop p)
    (hhead : pat[0]? = some c) (hc : c ∉ ("References\n".data)) :
    (∃ m, m ≤ p ∧ removeEverythingAfter doc pat = doc.take m) ∨
      (∃ m, removeEverythingAfter doc pat = doc.take m ∧
        ("References\n".data) <+: (doc.take m).drop p) := by
  cases hf : findSubstr doc pat with
  | none =>
    right
    have hre : removeEverythingAfter doc pat = doc.take doc.length := by
      unfold removeEverythingAfter
      rw [hf, List.take_length]
    refine ⟨doc.length, hre, ?_⟩
    rw [List.take_length]
    exact hR
  | some q =>
    have hre : removeEverythingAfter doc pat = doc.take q := by
      unfold removeEverythingAfter
      rw [hf]
    have hocc := findSubstr_prefix hf
    rcases marker_occurrence_avoids_refs hR hocc hhead hc with hlt | hge
    · exact Or.inl ⟨q, Nat.le_of_lt hlt, hre⟩
    · right
      refine ⟨q, hre, ?_⟩
      rw [List.drop_take]
      exact prefix_take_of_le hR (by
        have : ("References\n".data).length = 11 := rfl
        omega)

/-- C4: when a document contains the substring of "References" followed by
a newline (first occurrence at index p), the three marker truncations cut
the document at or before p, so the cleaned output is computed from a
prefix of the text strictly before that occurrence and contains nothing
drawn from it onward, whatever other markers appear anywhere in the
document. -/
theorem c4_clean_doc_truncates_at_references (doc : List Char) (p : Nat)
    (h : findSubstr doc ("References\n".data) = some p) :
    ∃ m, m ≤ p ∧ truncateMarkers doc = doc.take m ∧
      clean_doc doc = removeCitations (rejoinNonNumeric (doc.take m)) := by
  have hR : ("References\n".data) <+: doc.drop p := findSubstr_prefix h
  have hN := truncation_step_keeps_refs ("Notes\n".data) hR
    (c := 'N') rfl (by decide)
  have hfin : ∀ m, m ≤ p →
      truncateMarkers doc =
        removeEverythingAfter
          (removeEverythingAfter (doc.take m) ("External links\n".data))
          ("References\n".data) →
      ∃ m', m' ≤ p ∧ truncateMarkers doc = doc.take m' := by
    intro m hm htm
    obtain ⟨k2, hk2⟩ := removeEverythingAfter_eq_take (doc.take m)
      ("External links\n".data)
    obtain ⟨k3, hk3⟩ := removeEverythingAfter_eq_take
      ((doc.take m).take k2) ("References\n".data)
    refine ⟨min (min k3 k2) m, by omega, ?_⟩
    rw [htm, hk2, hk3, List.take_take, List.take_take]
  rcases hN with ⟨m1, hm1, hd1⟩ | ⟨m1, hd1, hR1⟩
  · obtain ⟨m', hm', htm⟩ := hfin m1 hm1 (by
      unfold truncateMarkers
      rw [hd1])
    exact ⟨m', hm', htm, by unfold clean_doc; rw [show truncateMarkers doc =
      doc.take m' from htm]⟩
  · have hE := truncation_step_keeps_refs ("External links\n".data)
      hR1 (c := 'E') rfl (by decide)
    rcases hE with ⟨m2, hm2, hd2⟩ | ⟨m2, hd2, hR2⟩
    · obtain ⟨k3, hk3⟩ := removeEverythingAfter_eq_take
        ((doc.take m1).take m2) ("References\n".data)
      refine ⟨min (min k3 m2) m1, by omega, ?_, ?_⟩
      · unfold truncateMarkers
        rw [hd1, hd2, hk3, List.take_take, List.take_take]
      · unfold clean_doc truncateMarkers
        rw [hd1, hd2, hk3, List.take_take, List.take_take]
    · obtain ⟨i, hip, hfind⟩ := findSubstr_complete hR2
      have hd3 : removeEverythingAfter ((doc.take m1).take m2)
          ("References\n".data) = ((doc.take m1).take m2).take i := by
        unfold removeEverythingAfter
        rw [hfind]
      refine ⟨min (min i m2) m1, by omega, ?_, ?_⟩
      · unfold truncateMarkers
        rw [hd1, hd2, hd3, List.take_take, List.take_take]
      · unfold clean_doc truncateMarkers
        rw [hd1, hd2, hd3, List.take_take, List.take_take]

theorem c4_clean_doc_truncates_at_references_witness :
    findSubstr ("intro text\nReferences\nNotes\n123 tail".data)
        ("References\n".data) = some 11 ∧
      ∃ m, m ≤ 11 ∧
        truncateMarkers ("intro text\nReferences\nNotes\n123 tail".data) =
          ("intro text\nReferences\nNotes\n123 tail".data).take m ∧
        clean_doc ("intro text\nReferences\nNotes\n123 tail".data) =
          removeCitations (rejoinNonNumeric
            (("intro text\nReferences\nNotes\n123 tail".data).take m)) :=
  ⟨by decide, c4_clean_doc_truncates_at_references _ 11 (by decide)⟩

/-! Stability of the timestamp sort. -/

theorem orderedInsert_filter_ts_eq (a : RevRecord) (l : List RevRecord)
    (t : Int) (ha : a.timestamp = t) :
    (List.orderedInsert (fun x y => x.timestamp ≤ y.timestamp) a l).filter
        (fun r => r.timestamp == t) =
      a :: l.filter (fun r => r.timestamp == t) := by
  have hat : (a.timestamp == t) = true := by simpa using ha
  induction l with
  | nil => simp [List.orderedInsert, List.filter_cons, hat]
  | cons b bs ih =>
    by_cases hab : a.timestamp ≤ b.timestamp
    · simp [List.orderedInsert, hab, List.filter_cons, hat]
    · have hbt : (b.timestamp == t) = false := by
        simp only [beq_eq_false_iff_ne, ne_eq]
        omega
      simp [List.orderedInsert, hab, List.filter_cons, hbt, ih]

theorem orderedInsert_filter_ts_ne (a : RevRecord) (l : List RevRecord)
    (t : Int) (ha : a.timestamp ≠ t) :
    (List.orderedInsert (fun x y => x.timestamp ≤ y.timestamp) a l).filter
        (fun r => r.timestamp == t) =
      l.filter (fun r => r.timestamp == t) := by
  have hat : (a.timestamp == t) = false := by
    simp only [beq_eq_false_iff_ne, ne_eq]
    exact ha
  induction l with
  | nil => simp [List.orderedInsert, List.filter_cons, hat]
  | cons b bs ih =>
    by_cases hab : a.timestamp ≤ b.timestamp
    · simp [List.orderedInsert, hab, List.filter_cons, hat]
    · simp [List.orderedInsert, hab, List.filter_cons, ih]

theorem sortByTimestamp_filter_ts (l : List RevRecord) (t : Int) :
    (sortByTimestamp l).filter (fun r => r.timestamp == t) =
      l.filter (fun r => r.timestamp == t) := by
  induction l with
  | nil => rfl
  | cons a l ih =>
    show (List.orderedInsert _ a (sortByTimestamp l)).filter _ = _
    by_cases ha : a.timestamp = t
    · rw [orderedInsert_filter_ts_eq a _ t ha, ih]
      simp [List.filter_cons, ha]
    · rw [orderedInsert_filter_ts_ne a _ t ha, ih]
      have hat : (a.timestamp == t) = false := by
        simp only [beq_eq_false_iff_ne, ne_eq]
        exact ha
      simp [List.filter_cons, hat]

/-- C9: the per-chunk timestamp sort inside process_chunk is stable: for
every timestamp value, the entries carrying it appear in the output in
exactly the relative order they had in the chunk as read from disk, so
tie-breaking never reorders equal-timestamp revisions. -/
theorem c9_process_chunk_sort_stable (chunk : List RevRecord) (t : Int) :
    (process_chunk chunk).filter (fun pr => pr.1 == t) =
      (chunk.filter (fun r => r.timestamp == t)).map recToPair := by
  show ((sortByTimestamp chunk).map recToPair).filter _ = _
  rw [List.filter_map]
  rw [show ((fun pr : Int × List Char => pr.1 == t) ∘ recToPair) =
    (fun r : RevRecord => r.timestamp == t) from rfl]
  rw [sortByTimestamp_filter_ts]

/-! The worker pool: executor.map gathers index-tagged results back in
input order, for any completion order of the workers. -/

theorem poolTrace_lookup (f : α → β) (inputs : List α) (order : List Nat)
    (i : Nat) (a : α) (hmem : i ∈ order) (hga : inputs[i]? = some a) :
    (poolTrace f inputs order).lookup i = some (f a) := by
  induction order with
  | nil => cases hmem
  | cons j order ih =>
    show (List.filterMap _ (j :: order)).lookup i = _
    rw [List.filterMap_cons]
    cases hj : inputs[j]? with
    | none =>
      rcases List.mem_cons.mp hmem with hij | hrest
      · subst hij
        rw [hga] at hj
        cases hj
      · exact ih hrest
    | some b =>
      simp only [Option.map_some']
      by_cases hij : i = j
      · subst hij
        rw [hga] at hj
        cases hj
        simp [List.lookup]
      · have : (i == j) = false := by simpa using hij
        simp only [List.lookup, this]
        exact ih (by
          rcases List.mem_cons.mp hmem with h | h
          · exact absurd h hij
          · exact h)

theorem filterMap_congr_mem (l : List γ) (F G : γ → Option δ)
    (h : ∀ x ∈ l, F x = G x) : l.filterMap F = l.filterMap G := by
  induction l with
  | nil => rfl
  | cons x l ih =>
    rw [List.filterMap_cons, List.filterMap_cons, h x (List.mem_cons_self _ _),
      ih (fun y hy => h y (List.mem_cons_of_mem _ hy))]

theorem filterMap_index_map (l : List α) (f : α → β) :
    (List.range l.length).filterMap (fun i => (l[i]?).map f) = l.map f := by
  induction l with
  | nil => rfl
  | cons a l ih =>
    rw [List.length_cons, List.range_succ_eq_map, List.filterMap_cons]
    simp only [List.getElem?_cons_zero, Option.map_some']
    rw [List.filterMap_map]
    have hcomp : ((fun i => ((a :: l)[i]?).map f) ∘ Nat.succ) =
        (fun i => (l[i]?).map f) := by
      funext i
      simp
    rw [hcomp, ih, List.map_cons]

theorem executorMap_perm (f : α → β) (inputs : List α) (order : List Nat)
    (h : order.Perm (List.range inputs.length)) :
    executorMap f inputs order = inputs.map f := by
  unfold executorMap poolCollect
  rw [filterMap_congr_mem _ _ (fun i => (inputs[i]?).map f) ?_]
  · exact filterMap_index_map inputs f
  · intro i hi
    have hlt : i < inputs.length := List.mem_range.mp hi
    have ha : inputs[i]? = some inputs[i] := List.getElem?_eq_getElem hlt
    rw [poolTrace_lookup f inputs order i inputs[i] (h.mem_iff.mpr hi) ha]
    simp [ha]

/-- C3: the pool's emitted sequence of cleaned revisions equals
clean_revision mapped over the timestamp-sorted chunk, for every
completion order of the workers (any permutation of the job indices) and
every stripping collaborator; order restoration never depends on which
worker finished first. -/
theorem c3_pool_emits_sorted_chunk_order (strip_code : List Char → List Char)
    (chunk : List RevRecord) (order : List Nat)
    (h : order.Perm (List.range (process_chunk chunk).length)) :
    executorMap (clean_revision strip_code) (process_chunk chunk) order =
      ((sortByTimestamp chunk).map recToPair).map (clean_revision strip_code) := by
  rw [executorMap_perm _ _ _ h]
  rfl

theorem c3_pool_emits_sorted_chunk_order_witness :
    ([2, 0, 1] : List Nat).Perm
        (List.range (process_chunk
          [⟨5, "c".data⟩, ⟨1, "a [2]".data⟩, ⟨3, "b 7".data⟩]).length) ∧
      executorMap (clean_revision (fun s => s))
          (process_chunk [⟨5, "c".data⟩, ⟨1, "a [2]".data⟩, ⟨3, "b 7".data⟩])
          [2, 0, 1] =
        ((sortByTimestamp
            [⟨5, "c".data⟩, ⟨1, "a [2]".data⟩, ⟨3, "b 7".data⟩]).map
          recToPair).map (clean_revision (fun s => s)) :=
  ⟨by decide, c3_pool_emits_sorted_chunk_order _ _ _ (by decide)⟩

/-! Pass 1: the harvest and the persisted write stream. -/

theorem optionMapAll_some (g : α → Option β) (l : List α)
    (h : ∀ x ∈ l, (g x).isSome) :
    optionMapAll g l = some (l.filterMap g) := by
  induction l with
  | nil => rfl
  | cons x xs ih =>
    obtain ⟨y, hy⟩ := Option.isSome_iff_exists.mp (h x (List.mem_cons_self _ _))
    have ih2 := ih (fun z hz => h z (List.mem_cons_of_mem _ hz))
    simp [optionMapAll, hy, ih2, List.filterMap_cons]

theorem filterMap_length_all_some (g : α → Option β) (l : List α)
    (h : ∀ x ∈ l, (g x).isSome) : (l.filterMap g).length = l.length := by
  induction l with
  | nil => rfl
  | cons x xs ih =>
    obtain ⟨y, hy⟩ := Option.isSome_iff_exists.mp (h x (List.mem_cons_self _ _))
    have ih2 := ih (fun z hz => h z (List.mem_cons_of_mem _ hz))
    simp [List.filterMap_cons, hy, ih2]

theorem recordsOfToks_append (t1 t2 : List WTok) :
    recordsOfToks (t1 ++ t2) = recordsOfToks t1 ++ recordsOfToks t2 :=
  List.filterMap_append t1 t2 _

theorem recordsOfToks_write (rs : List RevRecord) :
    recordsOfToks (write_revisions rs) = rs := by
  induction rs with
  | nil => rfl
  | cons r rs ih =>
    cases rs with
    | nil => rfl
    | cons r2 rs2 =>
      show recordsOfToks (WTok.record r :: WTok.sep ::
        List.intersperse WTok.sep ((r2 :: rs2).map WTok.record)) = r :: r2 :: rs2
      unfold recordsOfToks at ih ⊢
      simp only [List.filterMap_cons] at ih ⊢
      exact congrArg _ ih

theorem harvestRecords_length (pages : List ApiPage) (hp : AllParse pages) :
    (harvestRecords pages).length = totalValid pages := by
  induction pages with
  | nil => rfl
  | cons p ps ih =>
    have h1 := filterMap_length_all_some
      (fun tc => persistRevision tc.1 tc.2) (pageValid p)
      (hp p (List.mem_cons_self _ _))
    have ih2 := ih (fun q hq => hp q (List.mem_cons_of_mem _ hq))
    show ((pageValid p).filterMap _ ++ harvestRecords ps).length =
      (pageValid p).length + totalValid ps
    rw [List.length_append, h1, ih2]

theorem harvestAux_records (pages : List ApiPage)
    (ht : termNorm pages = true) (hp : AllParse pages) :
    ∃ t, harvestAux pages = some t ∧ recordsOfToks t = harvestRecords pages := by
  induction pages with
  | nil => cases ht
  | cons p rest ih =>
    have hpr : pageRecords p =
        some ((pageValid p).filterMap fun tc => persistRevision tc.1 tc.2) :=
      optionMapAll_some _ _ (hp p (List.mem_cons_self _ _))
    cases rest with
    | nil =>
      have hcont : p.rvcontinue = none :=
        Option.isNone_iff_eq_none.mp ht
      refine ⟨write_revisions ((pageValid p).filterMap
        fun tc => persistRevision tc.1 tc.2) ++ [WTok.arrEnd], ?_, ?_⟩
      · unfold harvestAux
        rw [hpr, hcont]
      · rw [recordsOfToks_append, recordsOfToks_write]
        show _ ++ ([] : List RevRecord) = _
        rw [List.append_nil]
        show _ = (pageValid p).filterMap
          (fun tc => persistRevision tc.1 tc.2) ++ ([] : List RevRecord)
        rw [List.append_nil]
    | cons p2 rest2 =>
      have ht2 : p.rvcontinue.isSome = true ∧ termNorm (p2 :: rest2) = true :=
        (Bool.and_eq_true _ _).mp ht
      obtain ⟨tok, hcont⟩ := Option.isSome_iff_exists.mp ht2.1
      obtain ⟨t, hat, hrt⟩ := ih ht2.2
        (fun q hq => hp q (List.mem_cons_of_mem _ hq))
      refine ⟨write_revisions ((pageValid p).filterMap
        fun tc => persistRevision tc.1 tc.2) ++ WTok.sep :: t, ?_, ?_⟩
      · unfold harvestAux
        rw [hpr, hcont, hat]
      · rw [recordsOfToks_append]
        show _ ++ recordsOfToks (WTok.sep :: t) =
          (pageValid p).filterMap _ ++ harvestRecords (p2 :: rest2)
        rw [recordsOfToks_write]
        refine congrArg _ ?_
        show recordsOfToks t = _
        rw [hrt]

/-- C1: a normally terminating harvest whose valid revisions all carry the
API's well-formed timestamps writes, without raising and without stopping
early, exactly the valid revisions of every page, converted, in exactly
the order the API returned them; revisions missing a required field are
dropped by the page filter and leave no trace in the stream (the pages
below may contain arbitrarily many such incomplete revisions). -/
theorem c1_harvest_writes_valid_in_order (pages : List ApiPage)
    (ht : termNorm pages = true) (hp : AllParse pages) :
    ∃ toks, get_all_revision_ids pages = some toks ∧
      recordsOfToks toks = harvestRecords pages ∧
      (recordsOfToks toks).length = totalValid pages := by
  obtain ⟨t, hat, hrt⟩ := harvestAux_records pages ht hp
  refine ⟨WTok.arrStart :: t, ?_, ?_, ?_⟩
  · unfold get_all_revision_ids
    rw [hat]
    rfl
  · show recordsOfToks t = _
    exact hrt
  · show (recordsOfToks t).length = _
    rw [hrt]
    exact harvestRecords_length pages hp

theorem c1_harvest_writes_valid_in_order_witness :
    termNorm
        [⟨[⟨some ("2020-01-01T00:00:00Z".data), some ("one".data)⟩,
           ⟨some ("2020-01-01T00:00:01Z".data), none⟩],
          some ("tok".data)⟩,
         ⟨[⟨none, some ("lost".data)⟩,
           ⟨some ("2020-01-01T00:00:02Z".data), some ("two".data)⟩],
          none⟩] = true ∧
      AllParse
        [⟨[⟨some ("2020-01-01T00:00:00Z".data), some ("one".data)⟩,
           ⟨some ("2020-01-01T00:00:01Z".data), none⟩],
          some ("tok".data)⟩,
         ⟨[⟨none, some ("lost".data)⟩,
           ⟨some ("2020-01-01T00:00:02Z".data), some ("two".data)⟩],
          none⟩] ∧
      ∃ toks,
        get_all_revision_ids
            [⟨[⟨some ("2020-01-01T00:00:00Z".data), some ("one".data)⟩,
               ⟨some ("2020-01-01T00:00:01Z".data), none⟩],
              some ("tok".data)⟩,
             ⟨[⟨none, some ("lost".data)⟩,
               ⟨some ("2020-01-01T00:00:02Z".data), some ("two".data)⟩],
              none⟩] = some toks ∧
          recordsOfToks toks =
            harvestRecords
              [⟨[⟨some ("2020-01-01T00:00:00Z".data), some ("one".data)⟩,
                 ⟨some ("2020-01-01T00:00:01Z".data), none⟩],
                some ("tok".data)⟩,
               ⟨[⟨none, some ("lost".data)⟩,
                 ⟨some ("2020-01-01T00:00:02Z".data), some ("two".data)⟩],
                none⟩] ∧
          (recordsOfToks toks).length =
            totalValid
              [⟨[⟨some ("2020-01-01T00:00:00Z".data), some ("one".data)⟩,
                 ⟨some ("2020-01-01T00:00:01Z".data), none⟩],
                some ("tok".data)⟩,
               ⟨[⟨none, some ("lost".data)⟩,
                 ⟨some ("2020-01-01T00:00:02Z".data), some ("two".data)⟩],
                none⟩] :=
  ⟨by decide, by decide, c1_harvest_writes_valid_in_order _ (by decide) (by decide)⟩

/-! The JSON-array framing of the write stream. -/

theorem wfItems_sep_intersperse (rs : List RevRecord) (r : RevRecord)
    (rest : List WTok) :
    wfItems (WTok.sep :: (List.intersperse WTok.sep
        ((r :: rs).map WTok.record) ++ rest)) = wfItems rest := by
  induction rs generalizing r with
  | nil => rfl
  | cons r2 rs2 ih =>
    show wfItems (WTok.sep :: WTok.record r :: WTok.sep ::
      (List.intersperse WTok.sep ((r2 :: rs2).map WTok.record) ++ rest)) = _
    rw [show wfItems (WTok.sep :: WTok.record r :: WTok.sep ::
      (List.intersperse WTok.sep ((r2 :: rs2).map WTok.record) ++ rest)) =
      wfItems (WTok.sep :: (List.intersperse WTok.sep
        ((r2 :: rs2).map WTok.record) ++ rest)) from rfl]
    exact ih r2

theorem wfAfterStart_intersperse (rs : List RevRecord) (r : RevRecord)
    (rest : List WTok) :
    wfAfterStart (List.intersperse WTok.sep
        ((r :: rs).map WTok.record) ++ rest) = wfItems rest := by
  cases rs with
  | nil => rfl
  | cons r2 rs2 =>
    show wfAfterStart (WTok.record r :: WTok.sep ::
      (List.intersperse WTok.sep ((r2 :: rs2).map WTok.record) ++ rest)) = _
    rw [show wfAfterStart (WTok.record r :: WTok.sep ::
      (List.intersperse WTok.sep ((r2 :: rs2).map WTok.record) ++ rest)) =
      wfItems (WTok.sep :: (List.intersperse WTok.sep
        ((r2 :: rs2).map WTok.record) ++ rest)) from rfl]
    exact wfItems_sep_intersperse rs2 r2 rest

theorem harvestAux_wf (pages : List ApiPage)
    (ht : termNorm pages = true) (hp : AllParse pages)
    (hne : ∀ p ∈ pages, pageValid p ≠ []) :
    ∃ t, harvestAux pages = some t ∧
      (∃ r t2, t = WTok.record r :: t2) ∧ wfAfterStart t = true := by
  induction pages with
  | nil => cases ht
  | cons p rest ih =>
    have hpr : pageRecords p =
        some ((pageValid p).filterMap fun tc => persistRevision tc.1 tc.2) :=
      optionMapAll_some _ _ (hp p (List.mem_cons_self _ _))
    have hlen : ((pageValid p).filterMap
        fun tc => persistRevision tc.1 tc.2).length = (pageValid p).length :=
      filterMap_length_all_some _ _ (hp p (List.mem_cons_self _ _))
    have hrs : (pageValid p).filterMap
        (fun tc => persistRevision tc.1 tc.2) ≠ [] := by
      intro hcon
      apply hne p (List.mem_cons_self _ _)
      have := hlen
      rw [hcon] at this
      exact List.eq_nil_of_length_eq_zero this.symm
    obtain ⟨r, rs2, hcons⟩ := List.exists_cons_of_ne_nil hrs
    cases rest with
    | nil =>
      have hcont : p.rvcontinue = none := Option.isNone_iff_eq_none.mp ht
      refine ⟨write_revisions ((pageValid p).filterMap
        fun tc => persistRevision tc.1 tc.2) ++ [WTok.arrEnd], ?_, ?_, ?_⟩
      · unfold harvestAux
        rw [hpr, hcont]
      · rw [hcons]
        cases rs2 with
        | nil => exact ⟨r, [WTok.arrEnd], rfl⟩
        | cons r3 rs3 => exact ⟨r, _, rfl⟩
      · rw [hcons]
        show wfAfterStart (List.intersperse WTok.sep
          ((r :: rs2).map WTok.record) ++ [WTok.arrEnd]) = true
        rw [wfAfterStart_intersperse]
        rfl
    | cons p2 rest2 =>
      have ht2 : p.rvcontinue.isSome = true ∧ termNorm (p2 :: rest2) = true :=
        (Bool.and_eq_true _ _).mp ht
      obtain ⟨tok, hcont⟩ := Option.isSome_iff_exists.mp ht2.1
      obtain ⟨t, hat, ⟨r4, t2, hshape⟩, hwf⟩ := ih ht2.2
        (fun q hq => hp q (List.mem_cons_of_mem _ hq))
        (fun q hq => hne q (List.mem_cons_of_mem _ hq))
      refine ⟨write_revisions ((pageValid p).filterMap
        fun tc => persistRevision tc.1 tc.2) ++ WTok.sep :: t, ?_, ?_, ?_⟩
      · unfold harvestAux
        rw [hpr, hcont, hat]
      · rw [hcons]
        cases rs2 with
        | nil => exact ⟨r, _, rfl⟩
        | cons r3 rs3 => exact ⟨r, _, rfl⟩
      · rw [hcons]
        show wfAfterStart (List.intersperse WTok.sep
          ((r :: rs2).map WTok.record) ++ (WTok.sep :: t)) = true
        rw [wfAfterStart_intersperse]
        rw [hshape]
        rw [show wfItems (WTok.sep :: WTok.record r4 :: t2) = wfItems t2
          from rfl]
        rw [hshape] at hwf
        exact hwf

/-- C7 counterexample: a two-page harvest that terminates normally, whose
second (terminal) page contributes zero valid revisions because its only
revision lacks the content field.  The loop still writes the between-pages
separator before requesting the second page, so the resulting stream is
start marker, record, separator, end marker: a trailing separator with no
record after it, which is not a well-formed JSON array. -/
theorem c7_zero_record_page_not_wellformed :
    termNorm
        [⟨[⟨some ("2020-01-01T00:00:00Z".data), some ("x".data)⟩],
          some ("tok".data)⟩,
         ⟨[⟨some ("2020-01-01T00:00:01Z".data), none⟩], none⟩] = true ∧
      get_all_revision_ids
          [⟨[⟨some ("2020-01-01T00:00:00Z".data), some ("x".data)⟩],
            some ("tok".data)⟩,
           ⟨[⟨some ("2020-01-01T00:00:01Z".data), none⟩], none⟩] =
        some [WTok.arrStart, WTok.record ⟨1577836800, "x".data⟩,
          WTok.sep, WTok.arrEnd] ∧
      wellFormedArr [WTok.arrStart, WTok.record ⟨1577836800, "x".data⟩,
        WTok.sep, WTok.arrEnd] = false := by decide

/-- C7 (amended): a normally terminating harvest produces a stream with
exactly one start marker and exactly one end marker, written after the
terminal page, and the stream is a single well-formed top-level JSON array
provided every page contributes at least one valid revision, or the
harvest consists of a single page; a multi-page harvest in which some page
contributes zero valid revisions leaves a stray separator and the file is
not a well-formed array. -/
theorem c7_harvest_wellformed_when_pages_nonempty (pages : List ApiPage)
    (ht : termNorm pages = true) (hp : AllParse pages)
    (hne : (∀ p ∈ pages, pageValid p ≠ []) ∨ pages.length = 1) :
    ∃ toks, get_all_revision_ids pages = some toks ∧
      wellFormedArr toks = true := by
  rcases hne with hne | hone
  · obtain ⟨t, hat, _, hwf⟩ := harvestAux_wf pages ht hp hne
    refine ⟨WTok.arrStart :: t, ?_, ?_⟩
    · unfold get_all_revision_ids
      rw [hat]
      rfl
    · show wfAfterStart t = true
      exact hwf
  · match pages, hone with
    | [p], _ =>
      have hcont : p.rvcontinue = none := Option.isNone_iff_eq_none.mp ht
      cases hv : pageValid p with
      | nil =>
        have hpr : pageRecords p = some [] := by
          unfold pageRecords
          rw [hv]
          rfl
        refine ⟨[WTok.arrStart, WTok.arrEnd], ?_, rfl⟩
        unfold get_all_revision_ids harvestAux
        rw [hpr, hcont]
        rfl
      | cons tc tcs =>
        obtain ⟨t, hat, _, hwf⟩ := harvestAux_wf [p] ht hp
          (by
            intro q hq
            rw [List.mem_singleton.mp hq, hv]
            simp)
        refine ⟨WTok.arrStart :: t, ?_, ?_⟩
        · unfold get_all_revision_ids
          rw [hat]
          rfl
        · show wfAfterStart t = true
          exact hwf

theorem c7_harvest_wellformed_when_pages_nonempty_witness :
    termNorm
        [⟨[⟨some ("2020-01-01T00:00:00Z".data), some ("x".data)⟩],
          some ("tok".data)⟩,
         ⟨[⟨some ("2020-01-01T00:00:01Z".data), some ("y".data)⟩], none⟩] =
        true ∧
      AllParse
        [⟨[⟨some ("2020-01-01T00:00:00Z".data), some ("x".data)⟩],
          some ("tok".data)⟩,
         ⟨[⟨some ("2020-01-01T00:00:01Z".data), some ("y".data)⟩], none⟩] ∧
      ∃ toks,
        get_all_revision_ids
            [⟨[⟨some ("2020-01-01T00:00:00Z".data), some ("x".data)⟩,],
              some ("tok".data)⟩,
             ⟨[⟨some ("2020-01-01T00:00:01Z".data), some ("y".data)⟩],
              none⟩] = some toks ∧
          wellFormedArr toks = true :=
  ⟨by decide, by decide,
    c7_harvest_wellformed_when_pages_nonempty _ (by decide) (by decide)
      (Or.inl (by decide))⟩

/-! Pass 2: the streaming reader and the chunk loop. -/

theorem ijsonAux_no_end (st : PSt) (toks : List WTok)
    (h : WTok.arrEnd ∉ toks) : (ijsonAux st toks).2 = false := by
  induction toks generalizing st with
  | nil => cases st <;> rfl
  | cons tk rest ih =>
    have hrest : WTok.arrEnd ∉ rest := fun hr => h (List.mem_cons_of_mem _ hr)
    have hne : tk ≠ WTok.arrEnd := fun he => h (he ▸ List.mem_cons_self _ _)
    cases st <;> cases tk <;>
      first
        | exact absurd rfl hne
        | exact ih _ hrest
        | rfl

theorem ijsonItems_no_end (toks : List WTok) (h : WTok.arrEnd ∉ toks) :
    (ijsonItems toks).2 = false := by
  cases toks with
  | nil => rfl
  | cons tk rest =>
    cases tk with
    | arrStart =>
      exact ijsonAux_no_end _ _ (fun hr => h (List.mem_cons_of_mem _ hr))
    | sep => rfl
    | record r => rfl
    | arrEnd => rfl

/-- C2 counterexample: a persisted collection truncated before its
terminal marker but holding 101 complete records.  The streaming reader
yields the first 100 records as a complete chunk, which is sorted and
cleaned, before the parser reaches the truncation point; only then does
the failure surface, with 100 revisions already cleaned, so the failure is
not surfaced before any normalization work starts. -/
theorem c2_cleaning_precedes_truncation_error :
    clean_revisions_in_batches
        (fun pr => some (clean_revision (fun s => s) pr)) truncatedToks =
      Except.error (List.replicate 100 ((0 : Int), ([] : List Char))) ∧
      List.replicate 100 ((0 : Int), ([] : List Char)) ≠ [] :=
  ⟨rfl, by decide⟩

/-- C2 (amended): re-opening a persisted collection that lacks its
terminal marker always fails with an error rather than returning a
truncated revision sequence as complete; the failure surfaces when the
parser reaches the truncation point, which is before any cleaning only
when the truncation lies within the first chunk of 100 records: complete
chunks wholly before the truncation point are cleaned first. -/
theorem c2_truncated_collection_always_fails
    (cl : Int × List Char → Option (Int × List Char)) (toks : List WTok)
    (h : WTok.arrEnd ∉ toks) :
    ∃ acc, clean_revisions_in_batches cl toks = Except.error acc := by
  have hflag := ijsonItems_no_end toks h
  unfold clean_revisions_in_batches
  simp only [hflag, Bool.false_eq_true, if_false]
  cases hr : runChunks cl
      (chunked 100 ((ijsonItems toks).1.take
        (100 * ((ijsonItems toks).1.length / 100)))) [] with
  | ok acc => exact ⟨acc, rfl⟩
  | error acc => exact ⟨acc, rfl⟩

theorem c2_truncated_collection_always_fails_witness :
    WTok.arrEnd ∉ [WTok.arrStart, WTok.record ⟨7, "doc".data⟩] ∧
      ∃ acc, clean_revisions_in_batches (fun pr => some pr)
        [WTok.arrStart, WTok.record ⟨7, "doc".data⟩] = Except.error acc :=
  ⟨by decide, c2_truncated_collection_always_fails _ _ (by decide)⟩

theorem runChunks_ok (cl : Int × List Char → Option (Int × List Char))
    (cs : List (List RevRecord)) (acc l : List (Int × List Char))
    (h : runChunks cl cs acc = Except.ok l) :
    ∃ ls, optionMapAll (fun c => optionMapAll cl (process_chunk c)) cs =
        some ls ∧ l = acc ++ ls.flatten := by
  induction cs generalizing acc with
  | nil =>
    refine ⟨[], rfl, ?_⟩
    have hacc : Except.ok (ε := List (Int × List Char)) acc = Except.ok l := h
    cases hacc
    rw [List.flatten_nil, List.append_nil]
  | cons c cs ih =>
    unfold runChunks at h
    cases hc : optionMapAll cl (process_chunk c) with
    | none =>
      rw [hc] at h
      cases h
    | some lc =>
      rw [hc] at h
      obtain ⟨ls, hls, hl⟩ := ih (acc ++ lc) h
      refine ⟨lc :: ls, ?_, ?_⟩
      · simp [optionMapAll, hc, hls]
      · rw [hl, List.flatten_cons, List.append_assoc]

/-- C8: pass 2 leaves no partially written final corpus: the final output
either is never created (whenever the batch run ends in an error, be it a
truncated input collection or a failed normalization) or holds exactly the
complete cleaned corpus of a properly closed input collection. -/
theorem c8_no_partial_final_output
    (cl : Int × List Char → Option (Int × List Char)) (toks : List WTok) :
    pass2Output cl toks = none ∨
      ∃ l, (ijsonItems toks).2 = true ∧ pass2Output cl toks = some l ∧
        fullCorpus cl (ijsonItems toks).1 = some l := by
  cases hres : clean_revisions_in_batches cl toks with
  | error e =>
    left
    unfold pass2Output
    rw [hres]
  | ok l =>
    right
    have hflag : (ijsonItems toks).2 = true := by
      by_contra hf
      have hf2 : (ijsonItems toks).2 = false := by simpa using hf
      unfold clean_revisions_in_batches at hres
      simp only [hf2, Bool.false_eq_true, if_false] at hres
      cases hr2 : runChunks cl
          (chunked 100 ((ijsonItems toks).1.take
            (100 * ((ijsonItems toks).1.length / 100)))) [] with
      | ok acc => rw [hr2] at hres; cases hres
      | error acc => rw [hr2] at hres; cases hres
    have hrun : runChunks cl (chunked 100 (ijsonItems toks).1) [] =
        Except.ok l := by
      unfold clean_revisions_in_batches at hres
      simp only [hflag, if_true] at hres
      exact hres
    obtain ⟨ls, hls, hl⟩ := runChunks_ok cl _ [] l hrun
    refine ⟨l, hflag, ?_, ?_⟩
    · unfold pass2Output
      rw [hres]
    · unfold fullCorpus
      rw [hls, Option.map_some', hl, List.nil_append]

/-! The batched latest-revision lookup. -/

theorem normLookup_key (p : QPage) (ns : List NormEntry)
    (pair : List Char × List Char) (h : normLookup p ns = some pair) :
    ∃ e ∈ ns, pair.1 = e.fromTitle := by
  induction ns with
  | nil => cases h
  | cons e rest ih =>
    unfold normLookup at h
    by_cases hsub : substrOf p.title e.toTitle = true
    · rw [if_pos hsub] at h
      obtain ⟨x, hx, heq⟩ := Option.map_eq_some'.mp h
      exact ⟨e, List.mem_cons_self _ _, by rw [← heq]⟩
    · rw [if_neg hsub] at h
      obtain ⟨e2, he2, hkey⟩ := ih h
      exact ⟨e2, List.mem_cons_of_mem _ he2, hkey⟩

/-- C10: get_latest_revisions assigns texts only under titles drawn from
the from field of entries of the response's normalized mapping; a
requested title that no normalized entry lists is silently absent from the
returned mapping even when the response carries an extract for its page,
and a response without a normalized mapping yields no assignments at
all. -/
theorem c10_unnormalized_title_omitted (resp : QueryResult) (t : List Char)
    (h : ∀ e ∈ resp.normalized.getD [], t ≠ e.fromTitle) :
    t ∉ (get_latest_revisions resp).map Prod.fst := by
  intro hmem
  unfold get_latest_revisions at hmem
  cases hn : resp.normalized with
  | none =>
    rw [hn] at hmem
    cases hmem
  | some ns =>
    rw [hn] at hmem
    obtain ⟨pair, hpair, hfst⟩ := List.mem_map.mp hmem
    obtain ⟨p, hpmem, hlook⟩ := List.mem_filterMap.mp hpair
    obtain ⟨e, he, hkey⟩ := normLookup_key p ns pair hlook
    exact h e (by rw [hn]; exact he) (by rw [← hfst, hkey])

theorem c10_unnormalized_title_omitted_witness :
    (∀ e ∈ (QueryResult.mk [⟨"Foo".data, some ("extract text".data)⟩]
        (some [⟨"Bar_page".data, "Bar page".data⟩])).normalized.getD [],
      "Foo".data ≠ e.fromTitle) ∧
      "Foo".data ∉ (get_latest_revisions
        (QueryResult.mk [⟨"Foo".data, some ("extract text".data)⟩]
          (some [⟨"Bar_page".data, "Bar page".data⟩]))).map Prod.fst :=
  ⟨by decide, c10_unnormalized_title_omitted _ _ (by decide)⟩
